import Mathlib

/-!
Shallow embedding of the character-level Markov wordlist engine of
word_up.py: the model builder build_markov_chain (source lines 82-91) and
the generator generate_words_from_markov (source lines 93-108), together
with the module constant MIN_WORD_LEN (line 20) and the hard synthesis
length cap 20 (line 99).

Python strings are embedded as List Char.  The model, a
defaultdict(Counter), is embedded as an association list from prefix
strings to frequency tables; a frequency table (collections.Counter) is an
association list from characters to counts, kept in insertion order as
Python dicts are.  Crucially, the defaultdict semantics of the source is
kept: reading model[prefix] inserts an empty table when the key is absent,
so the generator threads a possibly-extended model through its loop.

The random.choices weighted draw is embedded as a cumulative-weight
selection driven by an arbitrary oracle g : Nat -> Nat of raw random
numbers (one per draw, reduced modulo the total weight); universally
quantifying over g captures every possible sequence of random choices.
The unbounded while-loop of the generator is embedded with explicit fuel:
a result of none means the loop was still running after the given number
of iterations, and a statement proved for every fuel value describes a
loop that never terminates.
-/

/-- A next-character frequency table: embedding of a collections.Counter,
an insertion-ordered mapping from characters to counts. -/
abbrev Freq := List (Char × Nat)

/-- Counter lookup: the count stored for a character, 0 when absent. -/
def Freq.getC : Freq → Char → Nat
  | [], _ => 0
  | (c', n) :: rest, c => if c' = c then n else Freq.getC rest c

/-- The Python statement counter[c] += 1: bump the count of c in place,
appending a fresh entry with count 1 when c is absent. -/
def Freq.incr : Freq → Char → Freq
  | [], c => [(c, 1)]
  | (c', n) :: rest, c =>
      if c' = c then (c', n + 1) :: rest else (c', n) :: Freq.incr rest c

/-- Total weight of a frequency table (sum of counter values), the
denominator of the weighted random draw. -/
def Freq.total (f : Freq) : Nat := (f.map Prod.snd).sum

/-- Cumulative-weight selection: walk the table in insertion order and pick
the entry whose cumulative interval contains r.  This is the outcome of
random.choices(list(choices), weights=choices.values())[0] when the
uniform draw over the total weight lands at offset r.  The empty case is
never reached when r is below the total weight. -/
def Freq.select : Freq → Nat → Char
  | [], _ => '~'
  | (c, n) :: rest, r => if r < n then c else Freq.select rest (r - n)

/-- The transition model: embedding of the defaultdict(Counter) mapping
order-length prefixes to frequency tables, in insertion order. -/
abbrev Model := List (List Char × Freq)

/-- Plain dictionary lookup (no default insertion). -/
def Model.find : Model → List Char → Option Freq
  | [], _ => none
  | (p', f) :: rest, p => if p' = p then some f else Model.find rest p

/-- The defaultdict read model[prefix]: returns the stored table and the
(possibly extended) model; a missing key is inserted with an empty
Counter, exactly as defaultdict(Counter) does. -/
def Model.getD (m : Model) (p : List Char) : Freq × Model :=
  match Model.find m p with
  | some f => (f, m)
  | none => ([], m ++ [(p, [])])

/-- The build-time statement model[prefix][next_char] += 1 on a
defaultdict(Counter): increment in place, appending a fresh key with a
one-entry Counter when the prefix is absent. -/
def Model.bump : Model → List Char → Char → Model
  | [], p, c => [(p, [(c, 1)])]
  | (p', f) :: rest, p, c =>
      if p' = p then (p', Freq.incr f c) :: rest
      else (p', f) :: Model.bump rest p c

/-- Sum of all counts over all (prefix, next-character) entries. -/
def Model.totalCount (m : Model) : Nat := (m.map (fun e => Freq.total e.2)).sum

/-- The count the model stores for the pair (prefix p, next character c);
0 when the prefix or the character is absent. -/
def Model.countOf (m : Model) (p : List Char) (c : Char) : Nat :=
  match Model.find m p with
  | some f => Freq.getC f c
  | none => 0

/-- Module constant MIN_WORD_LEN = 4 (word_up.py line 20). -/
def MIN_WORD_LEN : Nat := 4

/-- The hard synthesis length cap: the literal 20 of the generation loop
"for _ in range(20):  # max length" (word_up.py line 99). -/
def MAX_SYNTH_LEN : Nat := 20

/-- The (prefix, next-character) pairs a single word contributes during the
build pass: for i in range(len(word)), the order-length window of the
sentinel-padded word starting at i, paired with word[i]. -/
def transitions (ord : Nat) (w : List Char) : List (List Char × Char) :=
  (List.range w.length).map
    (fun i => (((List.replicate ord '~' ++ w).drop i).take ord, w.getD i ' '))

/-- Number of occurrences of the pair (p, c) in a transition list. -/
def countPair : List (List Char × Char) → List Char → Char → Nat
  | [], _, _ => 0
  | qd :: rest, p, c =>
      (if qd.1 = p ∧ qd.2 = c then 1 else 0) + countPair rest p c

/-- The inner loop of build_markov_chain for one word (lines 86-90):
padded = "~" * order + word; for i in range(len(word)):
model[padded[i:i+order]][word[i]] += 1. -/
def addWord (ord : Nat) (m : Model) (w : List Char) : Model :=
  (List.range w.length).foldl
    (fun acc i =>
      Model.bump acc (((List.replicate ord '~' ++ w).drop i).take ord)
        (w.getD i ' '))
    m

/-- build_markov_chain (lines 82-91): fold the per-word pass over the seed
words, starting from the empty defaultdict.  The list order is the
iteration order of the Python set. -/
def build_markov_chain (words : List (List Char)) (ord : Nat) : Model :=
  words.foldl (addWord ord) []

/-- One inner synthesis loop of the generator (lines 99-105): up to k more
characters; each step reads model[pfx] (defaultdict: inserting an empty
table when absent), breaks on an empty table, otherwise draws a weighted
next character, appends it to the word and slides the prefix.  Returns the
synthesized word, the (possibly extended) model, and the next oracle
index. -/
def synthWord : Nat → List Char → List Char → Model → (Nat → Nat) → Nat →
    List Char × Model × Nat
  | 0, _, w, m, _, t => (w, m, t)
  | k + 1, pfx, w, m, g, t =>
      if (Model.getD m pfx).1 = [] then (w, (Model.getD m pfx).2, t)
      else
        synthWord k
          (pfx.drop 1 ++
            [Freq.select (Model.getD m pfx).1
              (g t % Freq.total (Model.getD m pfx).1)])
          (w ++
            [Freq.select (Model.getD m pfx).1
              (g t % Freq.total (Model.getD m pfx).1)])
          (Model.getD m pfx).2 g (t + 1)

/-- Lines 106-107: if len(word) >= MIN_WORD_LEN: results.add(word).  The
result set is embedded as a duplicate-free list; adding a member already
present leaves the set unchanged. -/
def addResult (results : List (List Char)) (w : List Char) :
    List (List Char) :=
  if MIN_WORD_LEN ≤ w.length ∧ ¬ w ∈ results then results ++ [w]
  else results

/-- The outer while-loop of the generator (lines 95-108), with explicit
fuel: while len(results) < count, synthesize one candidate word from the
start prefix "~" * order and add it when long enough.  none means the loop
had not finished after the given number of iterations. -/
def genLoop : Nat → Model → Nat → Nat → (Nat → Nat) → Nat →
    List (List Char) → Option (List (List Char) × Model)
  | 0, _, _, _, _, _, _ => none
  | fuel + 1, m, count, ord, g, t, results =>
      if results.length < count then
        genLoop fuel
          (synthWord MAX_SYNTH_LEN (List.replicate ord '~') [] m g t).2.1
          count ord g
          (synthWord MAX_SYNTH_LEN (List.replicate ord '~') [] m g t).2.2
          (addResult results
            (synthWord MAX_SYNTH_LEN (List.replicate ord '~') [] m g t).1)
      else some (results, m)

/-- generate_words_from_markov (lines 93-108), fuel-indexed: run the outer
loop from an empty result set. -/
def generate_words_from_markov (fuel : Nat) (model : Model) (count : Nat)
    (ord : Nat) (g : Nat → Nat) : Option (List (List Char) × Model) :=
  genLoop fuel model count ord g 0 []

/-- The three seed words of the spec scenario. -/
def bankW : List Char := ['b', 'a', 'n', 'k']

/-- Second scenario seed word. -/
def rankW : List Char := ['r', 'a', 'n', 'k']

/-- Third scenario seed word. -/
def tankW : List Char := ['t', 'a', 'n', 'k']

/-- Model well-formedness used for generation-time reasoning: every stored
frequency table is nonempty and all its counts are positive, with every
stored character satisfying Q. -/
def ModelGood (Q : Char → Prop) (m : Model) : Prop :=
  ∀ p f, Model.find m p = some f →
    f ≠ [] ∧ ∀ cn ∈ f, 0 < cn.2 ∧ Q cn.1

/-- m extends m0 only by empty-table entries: exactly the footprint the
defaultdict reads of the generator can leave on the model. -/
def Rext (m0 m : Model) : Prop :=
  ∀ p, Model.find m p = Model.find m0 p ∨
    (Model.find m0 p = none ∧ Model.find m p = some [])

/-- Every nonempty table of the model sits at the empty prefix: the shape
of every model built with order 0, used to show generation with order 0
gets stuck after one character. -/
def OnlyRootKey (m : Model) : Prop :=
  ∀ q f, Model.find m q = some f → f ≠ [] → q = []

/-! Basic lemmas about frequency tables. -/

theorem Freq.getC_incr (f : Freq) (d c : Char) :
    Freq.getC (Freq.incr f d) c = Freq.getC f c + (if d = c then 1 else 0) := by
  induction f with
  | nil =>
      by_cases h : d = c <;> simp [Freq.incr, Freq.getC, h]
  | cons hd rest ih =>
      obtain ⟨c', n⟩ := hd
      by_cases h1 : c' = d
      · subst h1
        by_cases h2 : c' = c <;> simp [Freq.incr, Freq.getC, h2]
      · by_cases h2 : c' = c
        · have hdc : ¬ d = c := fun h => h1 (h2.trans h.symm)
          have hcd : ¬ c = d := fun h => h1 (h2.trans h)
          simp [Freq.incr, Freq.getC, h1, h2, hdc, hcd]
        · simp [Freq.incr, Freq.getC, h1, h2, ih]

theorem Freq.total_incr (f : Freq) (c : Char) :
    Freq.total (Freq.incr f c) = Freq.total f + 1 := by
  induction f with
  | nil => simp [Freq.incr, Freq.total]
  | cons hd rest ih =>
      obtain ⟨c', n⟩ := hd
      by_cases h : c' = c <;>
        simp [Freq.incr, Freq.total, h] <;>
        simp [Freq.total] at ih <;> omega

theorem Freq.incr_ne_nil (f : Freq) (c : Char) : Freq.incr f c ≠ [] := by
  cases f with
  | nil => simp [Freq.incr]
  | cons hd rest =>
      obtain ⟨c', n⟩ := hd
      by_cases h : c' = c <;> simp [Freq.incr, h]

theorem Freq.incr_good {Q : Char → Prop} {f : Freq} {d : Char}
    (hf : ∀ cn ∈ f, 0 < cn.2 ∧ Q cn.1) (hd : Q d) :
    ∀ cn ∈ Freq.incr f d, 0 < cn.2 ∧ Q cn.1 := by
  induction f with
  | nil =>
      intro cn hcn
      simp [Freq.incr] at hcn
      subst hcn
      exact ⟨Nat.zero_lt_one, hd⟩
  | cons hd' rest ih =>
      obtain ⟨c', n⟩ := hd'
      by_cases h : c' = d
      · intro cn hcn
        simp [Freq.incr, h] at hcn
        rcases hcn with hcn | hcn
        · subst hcn
          exact ⟨Nat.succ_pos n, hd⟩
        · exact hf cn (List.mem_cons_of_mem _ hcn)
      · intro cn hcn
        simp only [Freq.incr, if_neg h] at hcn
        rcases List.mem_cons.mp hcn with hcn | hcn
        · subst hcn
          exact hf (c', n) (List.mem_cons_self _ _)
        · exact ih (fun x hx => hf x (List.mem_cons_of_mem _ hx)) cn hcn

theorem Freq.select_mem (f : Freq) (r : Nat) (hr : r < Freq.total f) :
    ∃ n, (Freq.select f r, n) ∈ f := by
  induction f generalizing r with
  | nil => simp [Freq.total] at hr
  | cons hd rest ih =>
      obtain ⟨c, n⟩ := hd
      by_cases h : r < n
      · exact ⟨n, by simp [Freq.select, h]⟩
      · have hr' : r - n < Freq.total rest := by
          simp [Freq.total] at hr ⊢
          omega
        obtain ⟨n', hn'⟩ := ih (r - n) hr'
        exact ⟨n', by simp [Freq.select, h]; right; exact hn'⟩

theorem Freq.total_pos {f : Freq} (hpos : ∀ cn ∈ f, 0 < cn.2)
    (hne : f ≠ []) : 0 < Freq.total f := by
  cases f with
  | nil => exact absurd rfl hne
  | cons hd rest =>
      have := hpos hd (List.mem_cons_self _ _)
      simp [Freq.total]
      omega

/-! Lemmas about lookup, bump and counting on models. -/

theorem Model.find_append_some {m1 : Model} {p : List Char} {f : Freq}
    (m2 : Model) (h : Model.find m1 p = some f) :
    Model.find (m1 ++ m2) p = some f := by
  induction m1 with
  | nil => simp [Model.find] at h
  | cons hd rest ih =>
      obtain ⟨p', f'⟩ := hd
      by_cases hp : p' = p
      · simp [Model.find, hp] at h ⊢
        exact h
      · simp [Model.find, hp] at h ⊢
        exact ih h

theorem Model.find_append_none {m1 : Model} {p : List Char}
    (m2 : Model) (h : Model.find m1 p = none) :
    Model.find (m1 ++ m2) p = Model.find m2 p := by
  induction m1 with
  | nil => simp [Model.find]
  | cons hd rest ih =>
      obtain ⟨p', f'⟩ := hd
      by_cases hp : p' = p
      · simp [Model.find, hp] at h
      · simp [Model.find, hp] at h ⊢
        exact ih h

theorem Model.countOf_bump (m : Model) (q : List Char) (d : Char)
    (p : List Char) (c : Char) :
    Model.countOf (Model.bump m q d) p c
      = Model.countOf m p c + (if q = p ∧ d = c then 1 else 0) := by
  induction m with
  | nil =>
      by_cases hq : q = p
      · subst hq
        by_cases hd : d = c <;>
          simp [Model.bump, Model.countOf, Model.find, Freq.getC, hd]
      · simp [Model.bump, Model.countOf, Model.find, hq]
  | cons hd rest ih =>
      obtain ⟨p', f'⟩ := hd
      by_cases h1 : p' = q
      · subst h1
        by_cases h2 : p' = p
        · subst h2
          simp [Model.bump, Model.countOf, Model.find, Freq.getC_incr]
        · simp [Model.bump, Model.countOf, Model.find, h2]
      · by_cases h2 : p' = p
        · subst h2
          have hq2 : ¬ (q = p' ∧ d = c) := fun hh => h1 hh.1.symm
          simp [Model.bump, Model.countOf, Model.find, h1, hq2]
        · simp only [Model.bump, if_neg h1]
          simp only [Model.countOf, Model.find, if_neg h2]
          exact ih

theorem Model.totalCount_bump (m : Model) (q : List Char) (d : Char) :
    Model.totalCount (Model.bump m q d) = Model.totalCount m + 1 := by
  induction m with
  | nil => simp [Model.bump, Model.totalCount, Freq.total]
  | cons hd rest ih =>
      obtain ⟨p', f'⟩ := hd
      by_cases h : p' = q
      · simp [Model.bump, Model.totalCount, h, Freq.total_incr]
        omega
      · simp [Model.bump, Model.totalCount, h]
        simp [Model.totalCount] at ih
        omega

/-! Bridging the build pass to per-word transition lists. -/

theorem addWord_transitions (ord : Nat) (m : Model) (w : List Char) :
    addWord ord m w
      = (transitions ord w).foldl (fun a qd => Model.bump a qd.1 qd.2) m := by
  simp [addWord, transitions, List.foldl_map]

theorem countOf_foldl_bump (p : List Char) (c : Char) :
    ∀ (ts : List (List Char × Char)) (m : Model),
      Model.countOf (ts.foldl (fun a qd => Model.bump a qd.1 qd.2) m) p c
        = Model.countOf m p c + countPair ts p c := by
  intro ts
  induction ts with
  | nil => intro m; simp [countPair]
  | cons qd rest ih =>
      intro m
      simp only [List.foldl_cons, countPair]
      rw [ih, Model.countOf_bump]
      omega

theorem countOf_addWord (ord : Nat) (m : Model) (w : List Char)
    (p : List Char) (c : Char) :
    Model.countOf (addWord ord m w) p c
      = Model.countOf m p c + countPair (transitions ord w) p c := by
  rw [addWord_transitions, countOf_foldl_bump]

theorem countOf_build_aux (ord : Nat) (p : List Char) (c : Char) :
    ∀ (ws : List (List Char)) (m : Model),
      Model.countOf (ws.foldl (addWord ord) m) p c
        = Model.countOf m p c
          + (ws.map (fun w => countPair (transitions ord w) p c)).sum := by
  intro ws
  induction ws with
  | nil => intro m; simp
  | cons w rest ih =>
      intro m
      simp only [List.foldl_cons, List.map_cons, List.sum_cons]
      rw [ih, countOf_addWord]
      omega

theorem countOf_build (ws : List (List Char)) (ord : Nat)
    (p : List Char) (c : Char) :
    Model.countOf (build_markov_chain ws ord) p c
      = (ws.map (fun w => countPair (transitions ord w) p c)).sum := by
  rw [build_markov_chain, countOf_build_aux]
  simp [Model.countOf, Model.find]

theorem totalCount_foldl_bump :
    ∀ (ts : List (List Char × Char)) (m : Model),
      Model.totalCount (ts.foldl (fun a qd => Model.bump a qd.1 qd.2) m)
        = Model.totalCount m + ts.length := by
  intro ts
  induction ts with
  | nil => intro m; simp
  | cons qd rest ih =>
      intro m
      simp only [List.foldl_cons, List.length_cons]
      rw [ih, Model.totalCount_bump]
      omega

theorem transitions_length (ord : Nat) (w : List Char) :
    (transitions ord w).length = w.length := by
  simp [transitions]

theorem totalCount_addWord (ord : Nat) (m : Model) (w : List Char) :
    Model.totalCount (addWord ord m w) = Model.totalCount m + w.length := by
  rw [addWord_transitions, totalCount_foldl_bump, transitions_length]

theorem totalCount_build_aux (ord : Nat) :
    ∀ (ws : List (List Char)) (m : Model),
      Model.totalCount (ws.foldl (addWord ord) m)
        = Model.totalCount m + (ws.map List.length).sum := by
  intro ws
  induction ws with
  | nil => intro m; simp
  | cons w rest ih =>
      intro m
      simp only [List.foldl_cons, List.map_cons, List.sum_cons]
      rw [ih, totalCount_addWord]
      omega

/-! Characters fed to the model during the build pass come from the word. -/

theorem getD_mem_chars : ∀ (w : List Char) (i : Nat),
    i < w.length → w.getD i ' ' ∈ w := by
  intro w
  induction w with
  | nil => intro i h; simp at h
  | cons a l ih =>
      intro i h
      cases i with
      | zero =>
          have hz : (a :: l).getD 0 ' ' = a := rfl
          rw [hz]
          exact List.mem_cons_self _ _
      | succ j =>
          have hs : (a :: l).getD (j + 1) ' ' = l.getD j ' ' := rfl
          rw [hs]
          exact List.mem_cons_of_mem _ (ih j (by simpa using h))

theorem transitions_snd_mem {ord : Nat} {w : List Char}
    {qd : List Char × Char} (h : qd ∈ transitions ord w) : qd.2 ∈ w := by
  simp only [transitions, List.mem_map, List.mem_range] at h
  obtain ⟨i, hi, heq⟩ := h
  subst heq
  exact getD_mem_chars w i hi

/-! Pointwise effect of a bump on lookups, and well-formedness of built
models. -/

theorem Model.find_bump (m : Model) (q : List Char) (d : Char)
    (p : List Char) :
    Model.find (Model.bump m q d) p
      = if q = p then some (Freq.incr ((Model.find m q).getD []) d)
        else Model.find m p := by
  induction m with
  | nil =>
      by_cases hq : q = p <;>
        simp [Model.bump, Model.find, Freq.incr, hq]
  | cons hd rest ih =>
      obtain ⟨p', f'⟩ := hd
      by_cases h1 : p' = q
      · subst h1
        by_cases h2 : p' = p
        · subst h2
          simp [Model.bump, Model.find]
        · have hq : ¬ p' = p := h2
          simp [Model.bump, Model.find, hq]
      · by_cases h2 : p' = p
        · subst h2
          have hq : ¬ q = p' := fun h => h1 h.symm
          simp [Model.bump, Model.find, h1, hq]
        · simp [Model.bump, Model.find, h1, h2, ih]

theorem good_bump {Q : Char → Prop} {m : Model} (hm : ModelGood Q m)
    {d : Char} (hd : Q d) (q : List Char) :
    ModelGood Q (Model.bump m q d) := by
  intro p f hf
  rw [Model.find_bump] at hf
  by_cases hq : q = p
  · rw [if_pos hq] at hf
    have hf' : f = Freq.incr ((Model.find m q).getD []) d :=
      (Option.some.injEq _ _ ▸ hf).symm
    subst hf'
    refine ⟨Freq.incr_ne_nil _ _, ?_⟩
    have hbase : ∀ cn ∈ (Model.find m q).getD [], 0 < cn.2 ∧ Q cn.1 := by
      cases hfind : Model.find m q with
      | none => simp
      | some f0 =>
          simp only [Option.getD_some]
          exact (hm q f0 hfind).2
    exact Freq.incr_good hbase hd
  · rw [if_neg hq] at hf
    exact hm p f hf

theorem good_foldl_bump {Q : Char → Prop} :
    ∀ (ts : List (List Char × Char)) (m : Model), ModelGood Q m →
      (∀ qd ∈ ts, Q qd.2) →
      ModelGood Q (ts.foldl (fun a qd => Model.bump a qd.1 qd.2) m) := by
  intro ts
  induction ts with
  | nil => intro m hm _; exact hm
  | cons qd rest ih =>
      intro m hm hts
      simp only [List.foldl_cons]
      exact ih _ (good_bump hm (hts qd (List.mem_cons_self _ _)) _)
        (fun x hx => hts x (List.mem_cons_of_mem _ hx))

theorem good_addWord {Q : Char → Prop} {m : Model} (ord : Nat)
    (hm : ModelGood Q m) {w : List Char} (hw : ∀ c ∈ w, Q c) :
    ModelGood Q (addWord ord m w) := by
  rw [addWord_transitions]
  exact good_foldl_bump _ m hm (fun qd hqd => hw _ (transitions_snd_mem hqd))

theorem good_build_aux {Q : Char → Prop} (ord : Nat) :
    ∀ (ws : List (List Char)) (m : Model), ModelGood Q m →
      (∀ w ∈ ws, ∀ c ∈ w, Q c) →
      ModelGood Q (ws.foldl (addWord ord) m) := by
  intro ws
  induction ws with
  | nil => intro m hm _; exact hm
  | cons w rest ih =>
      intro m hm hws
      simp only [List.foldl_cons]
      exact ih _ (good_addWord ord hm (hws w (List.mem_cons_self _ _)))
        (fun x hx => hws x (List.mem_cons_of_mem _ hx))

theorem good_nil (Q : Char → Prop) : ModelGood Q ([] : Model) := by
  intro p f hf
  simp [Model.find] at hf

theorem good_build (seed : List (List Char)) (ord : Nat) :
    ModelGood (fun c => ∃ v ∈ seed, c ∈ v) (build_markov_chain seed ord) := by
  rw [build_markov_chain]
  exact good_build_aux ord seed [] (good_nil _)
    (fun w hw c hc => ⟨w, hw, hc⟩)

theorem good_build_true (seed : List (List Char)) (ord : Nat) :
    ModelGood (fun _ => True) (build_markov_chain seed ord) := by
  rw [build_markov_chain]
  exact good_build_aux ord seed [] (good_nil _) (fun _ _ _ _ => trivial)

/-! The defaultdict footprint of generation: the model only ever gains
empty-table entries. -/

theorem Rext_refl (m : Model) : Rext m m := fun _ => Or.inl rfl

theorem Rext_trans {m0 m1 m2 : Model} (h1 : Rext m0 m1) (h2 : Rext m1 m2) :
    Rext m0 m2 := by
  intro p
  rcases h2 p with h | ⟨hn, hs⟩
  · rcases h1 p with h' | ⟨hn', hs'⟩
    · exact Or.inl (h.trans h')
    · exact Or.inr ⟨hn', h.trans hs'⟩
  · rcases h1 p with h' | ⟨hn', _⟩
    · exact Or.inr ⟨by rw [← h']; exact hn, hs⟩
    · exact Or.inr ⟨hn', hs⟩

theorem getD_of_some {m : Model} {p : List Char} {f : Freq}
    (hf : Model.find m p = some f) : Model.getD m p = (f, m) := by
  simp [Model.getD, hf]

theorem getD_of_none {m : Model} {p : List Char}
    (hf : Model.find m p = none) :
    Model.getD m p = ([], m ++ [(p, [])]) := by
  simp [Model.getD, hf]

theorem getD_fst_nonempty {m : Model} {p : List Char}
    (h : (Model.getD m p).1 ≠ []) :
    Model.find m p = some (Model.getD m p).1 := by
  cases hf : Model.find m p with
  | some f => simp [getD_of_some hf]
  | none => rw [getD_of_none hf] at h; simp at h

theorem Rext_getD_step (m : Model) (p : List Char) :
    Rext m (Model.getD m p).2 := by
  cases hf : Model.find m p with
  | some f =>
      rw [getD_of_some hf]
      exact Rext_refl m
  | none =>
      rw [getD_of_none hf]
      intro q
      cases hfq : Model.find m q with
      | some fq => exact Or.inl (Model.find_append_some _ hfq)
      | none =>
          by_cases hq : p = q
          · subst hq
            exact Or.inr ⟨rfl, by
              rw [Model.find_append_none _ hfq]; simp [Model.find]⟩
          · left
            rw [Model.find_append_none _ hfq]
            simp [Model.find, hq]

theorem Rext_find_nonempty {m0 m : Model} (h : Rext m0 m) {p : List Char}
    {f : Freq} (hf : Model.find m p = some f) (hne : f ≠ []) :
    Model.find m0 p = some f := by
  rcases h p with h' | ⟨_, hs⟩
  · rw [← h']; exact hf
  · have : some f = some ([] : Freq) := hf.symm.trans hs
    exact absurd (Option.some.inj this) hne

/-! Behaviour of one inner synthesis loop. -/

theorem synth_len : ∀ (k : Nat) (pfx w : List Char) (m : Model)
    (g : Nat → Nat) (t : Nat),
    (synthWord k pfx w m g t).1.length ≤ w.length + k := by
  intro k
  induction k with
  | zero => intro pfx w m g t; simp [synthWord]
  | succ k ih =>
      intro pfx w m g t
      by_cases h : (Model.getD m pfx).1 = []
      · simp only [synthWord, if_pos h]
        omega
      · simp only [synthWord, if_neg h]
        have h2 := ih
          (pfx.drop 1 ++
            [Freq.select (Model.getD m pfx).1
              (g t % Freq.total (Model.getD m pfx).1)])
          (w ++
            [Freq.select (Model.getD m pfx).1
              (g t % Freq.total (Model.getD m pfx).1)])
          (Model.getD m pfx).2 g (t + 1)
        simp only [List.length_append, List.length_singleton] at h2
        omega

theorem synth_Rext : ∀ (k : Nat) (pfx w : List Char) (m0 m : Model)
    (g : Nat → Nat) (t : Nat), Rext m0 m →
    Rext m0 (synthWord k pfx w m g t).2.1 := by
  intro k
  induction k with
  | zero => intro pfx w m0 m g t h; exact h
  | succ k ih =>
      intro pfx w m0 m g t h
      by_cases hc : (Model.getD m pfx).1 = []
      · simp only [synthWord, if_pos hc]
        exact Rext_trans h (Rext_getD_step m pfx)
      · simp only [synthWord, if_neg hc]
        exact ih _ _ m0 _ g _ (Rext_trans h (Rext_getD_step m pfx))

theorem synth_chars {Q : Char → Prop} {m0 : Model} (hm0 : ModelGood Q m0) :
    ∀ (k : Nat) (pfx w : List Char) (m : Model) (g : Nat → Nat) (t : Nat),
    Rext m0 m → (∀ c ∈ w, Q c) →
    ∀ c ∈ (synthWord k pfx w m g t).1, Q c := by
  intro k
  induction k with
  | zero => intro pfx w m g t _ hw; exact hw
  | succ k ih =>
      intro pfx w m g t hR hw
      by_cases hc : (Model.getD m pfx).1 = []
      · simp only [synthWord, if_pos hc]
        exact hw
      · simp only [synthWord, if_neg hc]
        have hfind : Model.find m pfx = some (Model.getD m pfx).1 :=
          getD_fst_nonempty hc
        have hfind0 : Model.find m0 pfx = some (Model.getD m pfx).1 :=
          Rext_find_nonempty hR hfind hc
        have hgood := (hm0 pfx _ hfind0).2
        have hpos : ∀ cn ∈ (Model.getD m pfx).1, 0 < cn.2 :=
          fun cn hcn => (hgood cn hcn).1
        have htot : 0 < Freq.total (Model.getD m pfx).1 :=
          Freq.total_pos hpos hc
        have hr : g t % Freq.total (Model.getD m pfx).1
            < Freq.total (Model.getD m pfx).1 := Nat.mod_lt _ htot
        obtain ⟨n, hn⟩ := Freq.select_mem _ _ hr
        have hQsel : Q (Freq.select (Model.getD m pfx).1
            (g t % Freq.total (Model.getD m pfx).1)) := (hgood _ hn).2
        have hw' : ∀ c ∈ w ++
            [Freq.select (Model.getD m pfx).1
              (g t % Freq.total (Model.getD m pfx).1)], Q c := by
          intro c hcm
          rcases List.mem_append.mp hcm with h1 | h1
          · exact hw c h1
          · rw [List.mem_singleton] at h1
            rw [h1]
            exact hQsel
        exact ih _ _ _ g _ (Rext_trans hR (Rext_getD_step m pfx)) hw'

/-! Behaviour of the outer generation loop. -/

theorem mem_addResult {res : List (List Char)} {w1 w : List Char}
    (h : w ∈ addResult res w1) :
    w ∈ res ∨ (w = w1 ∧ MIN_WORD_LEN ≤ w1.length) := by
  by_cases hc : MIN_WORD_LEN ≤ w1.length ∧ ¬ w1 ∈ res
  · rw [addResult, if_pos hc] at h
    rcases List.mem_append.mp h with h1 | h1
    · exact Or.inl h1
    · exact Or.inr ⟨List.mem_singleton.mp h1, hc.1⟩
  · rw [addResult, if_neg hc] at h
    exact Or.inl h

theorem addResult_len_le {res : List (List Char)} (w1 : List Char) :
    (addResult res w1).length ≤ res.length + 1 := by
  by_cases hc : MIN_WORD_LEN ≤ w1.length ∧ ¬ w1 ∈ res <;>
    simp [addResult, hc]

theorem addResult_nodup {res : List (List Char)} (w1 : List Char)
    (h : res.Nodup) : (addResult res w1).Nodup := by
  by_cases hc : MIN_WORD_LEN ≤ w1.length ∧ ¬ w1 ∈ res
  · rw [addResult, if_pos hc]
    rw [List.nodup_append]
    exact ⟨h, List.nodup_singleton _, by
      intro a ha hb
      rw [List.mem_singleton] at hb
      subst hb
      exact hc.2 ha⟩
  · rw [addResult, if_neg hc]
    exact h

theorem genLoop_len : ∀ (fuel : Nat) (m : Model) (count ord : Nat)
    (g : Nat → Nat) (t : Nat) (res res' : List (List Char)) (m' : Model),
    (∀ w ∈ res, MIN_WORD_LEN ≤ w.length ∧ w.length ≤ MAX_SYNTH_LEN) →
    genLoop fuel m count ord g t res = some (res', m') →
    ∀ w ∈ res', MIN_WORD_LEN ≤ w.length ∧ w.length ≤ MAX_SYNTH_LEN := by
  intro fuel
  induction fuel with
  | zero =>
      intro m count ord g t res res' m' _ hgen
      simp [genLoop] at hgen
  | succ fuel ih =>
      intro m count ord g t res res' m' hres hgen
      simp only [genLoop] at hgen
      by_cases hlt : res.length < count
      · rw [if_pos hlt] at hgen
        refine ih _ count ord g _ _ res' m' ?_ hgen
        intro w hw
        rcases mem_addResult hw with h1 | ⟨h1, h2⟩
        · exact hres w h1
        · subst h1
          have hle := synth_len MAX_SYNTH_LEN (List.replicate ord '~') [] m g t
          simp only [List.length_nil, Nat.zero_add] at hle
          exact ⟨h2, hle⟩
      · rw [if_neg hlt] at hgen
        simp only [Option.some.injEq, Prod.mk.injEq] at hgen
        obtain ⟨h1, _⟩ := hgen
        subst h1
        exact hres

theorem genLoop_count : ∀ (fuel : Nat) (m : Model) (count ord : Nat)
    (g : Nat → Nat) (t : Nat) (res res' : List (List Char)) (m' : Model),
    res.length ≤ count → res.Nodup →
    genLoop fuel m count ord g t res = some (res', m') →
    res'.length = count ∧ res'.Nodup := by
  intro fuel
  induction fuel with
  | zero =>
      intro m count ord g t res res' m' _ _ hgen
      simp [genLoop] at hgen
  | succ fuel ih =>
      intro m count ord g t res res' m' hle hnd hgen
      simp only [genLoop] at hgen
      by_cases hlt : res.length < count
      · rw [if_pos hlt] at hgen
        refine ih _ count ord g _ _ res' m' ?_ ?_ hgen
        · have hlen2 : (addResult res
              (synthWord MAX_SYNTH_LEN (List.replicate ord '~') [] m g
                t).1).length ≤ res.length + 1 := addResult_len_le _
          omega
        · exact addResult_nodup _ hnd
      · rw [if_neg hlt] at hgen
        simp only [Option.some.injEq, Prod.mk.injEq] at hgen
        obtain ⟨h1, _⟩ := hgen
        subst h1
        exact ⟨by omega, hnd⟩

theorem genLoop_Rext : ∀ (fuel : Nat) (m0 m : Model) (count ord : Nat)
    (g : Nat → Nat) (t : Nat) (res res' : List (List Char)) (m' : Model),
    Rext m0 m →
    genLoop fuel m count ord g t res = some (res', m') →
    Rext m0 m' := by
  intro fuel
  induction fuel with
  | zero =>
      intro m0 m count ord g t res res' m' _ hgen
      simp [genLoop] at hgen
  | succ fuel ih =>
      intro m0 m count ord g t res res' m' hR hgen
      simp only [genLoop] at hgen
      by_cases hlt : res.length < count
      · rw [if_pos hlt] at hgen
        exact ih m0 _ count ord g _ _ res' m'
          (synth_Rext MAX_SYNTH_LEN (List.replicate ord '~') [] m0 m g t hR)
          hgen
      · rw [if_neg hlt] at hgen
        simp only [Option.some.injEq, Prod.mk.injEq] at hgen
        obtain ⟨_, h2⟩ := hgen
        subst h2
        exact hR

theorem genLoop_chars {Q : Char → Prop} {m0 : Model}
    (hm0 : ModelGood Q m0) :
    ∀ (fuel : Nat) (m : Model) (count ord : Nat) (g : Nat → Nat) (t : Nat)
    (res res' : List (List Char)) (m' : Model),
    Rext m0 m → (∀ w ∈ res, ∀ c ∈ w, Q c) →
    genLoop fuel m count ord g t res = some (res', m') →
    ∀ w ∈ res', ∀ c ∈ w, Q c := by
  intro fuel
  induction fuel with
  | zero =>
      intro m count ord g t res res' m' _ _ hgen
      simp [genLoop] at hgen
  | succ fuel ih =>
      intro m count ord g t res res' m' hR hres hgen
      simp only [genLoop] at hgen
      by_cases hlt : res.length < count
      · rw [if_pos hlt] at hgen
        refine ih _ count ord g _ _ res' m'
          (synth_Rext MAX_SYNTH_LEN (List.replicate ord '~') [] m0 m g t hR)
          ?_ hgen
        intro w hw
        rcases mem_addResult hw with h1 | ⟨h1, _⟩
        · exact hres w h1
        · subst h1
          exact synth_chars hm0 MAX_SYNTH_LEN (List.replicate ord '~') [] m
            g t hR (by intro c hc; simp at hc)
      · rw [if_neg hlt] at hgen
        simp only [Option.some.injEq, Prod.mk.injEq] at hgen
        obtain ⟨h1, _⟩ := hgen
        subst h1
        exact hres

/-! Stuck configurations of the generator: when the start prefix has no
usable entry, every pass synthesizes a too-short word and the outer loop
makes no progress. -/

theorem synth_break {m : Model} {pfx : List Char}
    (h : (Model.getD m pfx).1 = []) (k : Nat) (w : List Char)
    (g : Nat → Nat) (t : Nat) :
    synthWord (k + 1) pfx w m g t = (w, (Model.getD m pfx).2, t) := by
  simp [synthWord, h]

theorem genLoop_stuck2 : ∀ (fuel : Nat) (m : Model) (count : Nat)
    (g : Nat → Nat) (t : Nat),
    (Model.find m (List.replicate 2 '~') = none ∨
      Model.find m (List.replicate 2 '~') = some []) →
    1 ≤ count →
    genLoop fuel m count 2 g t [] = none := by
  intro fuel
  induction fuel with
  | zero => intro m count g t _ _; simp [genLoop]
  | succ fuel ih =>
      intro m count g t hfind hcount
      have hget1 : (Model.getD m (List.replicate 2 '~')).1 = [] := by
        rcases hfind with h | h
        · rw [getD_of_none h]
        · rw [getD_of_some h]
      have hsynth : synthWord MAX_SYNTH_LEN (List.replicate 2 '~') [] m g t
          = ([], (Model.getD m (List.replicate 2 '~')).2, t) := by
        rw [show MAX_SYNTH_LEN = 19 + 1 from rfl]
        exact synth_break hget1 19 [] g t
      have hfind' : Model.find (Model.getD m (List.replicate 2 '~')).2
          (List.replicate 2 '~') = some [] := by
        rcases hfind with h | h
        · rw [getD_of_none h]
          rw [Model.find_append_none _ h]
          simp [Model.find]
        · rw [getD_of_some h]
          exact h
      simp only [genLoop]
      rw [if_pos (by simpa using hcount), hsynth]
      have haddr : addResult [] ([] : List Char) = [] := by
        rw [addResult, if_neg]
        rintro ⟨hge, _⟩
        rw [MIN_WORD_LEN] at hge
        simp at hge
      show genLoop fuel (Model.getD m (List.replicate 2 '~')).2 count 2 g t
          (addResult [] []) = none
      rw [haddr]
      exact ih _ count g t (Or.inr hfind') hcount

theorem onlyRoot_getD {m : Model} (hm : OnlyRootKey m) (p : List Char) :
    OnlyRootKey (Model.getD m p).2 := by
  cases hf : Model.find m p with
  | some f =>
      rw [getD_of_some hf]
      exact hm
  | none =>
      rw [getD_of_none hf]
      intro q f hq hne
      cases hfq : Model.find m q with
      | some fq =>
          have heq : some fq = some f := by
            rw [← Model.find_append_some ([(p, [])] : Model) hfq]
            exact hq
          exact hm q f (hfq.trans heq) hne
      | none =>
          rw [Model.find_append_none _ hfq] at hq
          by_cases hpq : p = q
          · subst hpq
            simp [Model.find] at hq
            exact absurd hq hne
          · simp [Model.find, hpq] at hq

theorem synth_stuck_ne : ∀ (k : Nat) (pfx w : List Char) (m : Model)
    (g : Nat → Nat) (t : Nat), OnlyRootKey m → pfx ≠ [] →
    (synthWord k pfx w m g t).1 = w ∧
    OnlyRootKey (synthWord k pfx w m g t).2.1 := by
  intro k pfx w m g t hm hpfx
  cases k with
  | zero => exact ⟨rfl, hm⟩
  | succ k =>
      have hc : (Model.getD m pfx).1 = [] := by
        cases hf : Model.find m pfx with
        | none => rw [getD_of_none hf]
        | some f =>
            by_cases hfe : f = []
            · rw [getD_of_some hf, hfe]
            · exact absurd (hm pfx f hf hfe) hpfx
      simp only [synthWord, if_pos hc]
      exact ⟨trivial, onlyRoot_getD hm pfx⟩

theorem synth0_stuck (m : Model) (g : Nat → Nat) (t : Nat)
    (hm : OnlyRootKey m) (k : Nat) :
    (synthWord (k + 1) [] [] m g t).1.length ≤ 1 ∧
    OnlyRootKey (synthWord (k + 1) [] [] m g t).2.1 := by
  by_cases hc : (Model.getD m []).1 = []
  · simp only [synthWord, if_pos hc]
    exact ⟨by simp, onlyRoot_getD hm []⟩
  · simp only [synthWord, if_neg hc]
    have hm1 : OnlyRootKey (Model.getD m []).2 := onlyRoot_getD hm []
    obtain ⟨h1, h2⟩ := synth_stuck_ne k
      (List.drop 1 ([] : List Char) ++
        [Freq.select (Model.getD m []).1
          (g t % Freq.total (Model.getD m []).1)])
      (([] : List Char) ++
        [Freq.select (Model.getD m []).1
          (g t % Freq.total (Model.getD m []).1)])
      (Model.getD m []).2 g (t + 1) hm1 (by simp)
    refine ⟨?_, h2⟩
    rw [h1]
    simp

theorem genLoop_stuck0 : ∀ (fuel : Nat) (m : Model) (count : Nat)
    (g : Nat → Nat) (t : Nat), OnlyRootKey m → 1 ≤ count →
    genLoop fuel m count 0 g t [] = none := by
  intro fuel
  induction fuel with
  | zero => intro m count g t _ _; simp [genLoop]
  | succ fuel ih =>
      intro m count g t hm hcount
      simp only [genLoop]
      rw [if_pos (by simpa using hcount)]
      rw [show MAX_SYNTH_LEN = 19 + 1 from rfl]
      have hrep : List.replicate 0 '~' = ([] : List Char) := rfl
      rw [hrep]
      obtain ⟨hlen, hor⟩ := synth0_stuck m g t hm 19
      have haddr : addResult [] (synthWord (19 + 1) [] [] m g t).1 = [] := by
        rw [addResult, if_neg]
        rintro ⟨hge, _⟩
        rw [MIN_WORD_LEN] at hge
        omega
      rw [haddr]
      exact ih _ count g _ hor hcount

/-! Evaluating per-word transition counts for the scenario seed. -/

theorem countPair_nil (p : List Char) (c : Char) : countPair [] p c = 0 :=
  rfl

theorem countPair_cons_hit {qd : List Char × Char}
    {rest : List (List Char × Char)} {p : List Char} {c : Char}
    (h : qd.1 = p) :
    countPair (qd :: rest) p c
      = (if qd.2 = c then 1 else 0) + countPair rest p c := by
  simp [countPair, h]

theorem countPair_cons_miss {qd : List Char × Char}
    {rest : List (List Char × Char)} {p : List Char} {c : Char}
    (h : ¬ qd.1 = p) :
    countPair (qd :: rest) p c = countPair rest p c := by
  simp [countPair, h]

theorem cpBankStart (c : Char) :
    countPair (transitions 2 bankW) ['~', '~'] c
      = if 'b' = c then 1 else 0 := by
  rw [show transitions 2 bankW
      = [(['~', '~'], 'b'), (['~', 'b'], 'a'), (['b', 'a'], 'n'),
         (['a', 'n'], 'k')] by decide]
  rw [countPair_cons_hit (by decide), countPair_cons_miss (by decide),
    countPair_cons_miss (by decide), countPair_cons_miss (by decide),
    countPair_nil]
  simp

theorem cpRankStart (c : Char) :
    countPair (transitions 2 rankW) ['~', '~'] c
      = if 'r' = c then 1 else 0 := by
  rw [show transitions 2 rankW
      = [(['~', '~'], 'r'), (['~', 'r'], 'a'), (['r', 'a'], 'n'),
         (['a', 'n'], 'k')] by decide]
  rw [countPair_cons_hit (by decide), countPair_cons_miss (by decide),
    countPair_cons_miss (by decide), countPair_cons_miss (by decide),
    countPair_nil]
  simp

theorem cpTankStart (c : Char) :
    countPair (transitions 2 tankW) ['~', '~'] c
      = if 't' = c then 1 else 0 := by
  rw [show transitions 2 tankW
      = [(['~', '~'], 't'), (['~', 't'], 'a'), (['t', 'a'], 'n'),
         (['a', 'n'], 'k')] by decide]
  rw [countPair_cons_hit (by decide), countPair_cons_miss (by decide),
    countPair_cons_miss (by decide), countPair_cons_miss (by decide),
    countPair_nil]
  simp

theorem cpBankAn (c : Char) :
    countPair (transitions 2 bankW) ['a', 'n'] c
      = if 'k' = c then 1 else 0 := by
  rw [show transitions 2 bankW
      = [(['~', '~'], 'b'), (['~', 'b'], 'a'), (['b', 'a'], 'n'),
         (['a', 'n'], 'k')] by decide]
  rw [countPair_cons_miss (by decide), countPair_cons_miss (by decide),
    countPair_cons_miss (by decide), countPair_cons_hit (by decide),
    countPair_nil]
  simp

theorem cpRankAn (c : Char) :
    countPair (transitions 2 rankW) ['a', 'n'] c
      = if 'k' = c then 1 else 0 := by
  rw [show transitions 2 rankW
      = [(['~', '~'], 'r'), (['~', 'r'], 'a'), (['r', 'a'], 'n'),
         (['a', 'n'], 'k')] by decide]
  rw [countPair_cons_miss (by decide), countPair_cons_miss (by decide),
    countPair_cons_miss (by decide), countPair_cons_hit (by decide),
    countPair_nil]
  simp

theorem cpTankAn (c : Char) :
    countPair (transitions 2 tankW) ['a', 'n'] c
      = if 'k' = c then 1 else 0 := by
  rw [show transitions 2 tankW
      = [(['~', '~'], 't'), (['~', 't'], 'a'), (['t', 'a'], 'n'),
         (['a', 'n'], 'k')] by decide]
  rw [countPair_cons_miss (by decide), countPair_cons_miss (by decide),
    countPair_cons_miss (by decide), countPair_cons_hit (by decide),
    countPair_nil]
  simp

/-! Claim theorems. -/

/-- Claim C1: the claim states that generation from the model built from an
empty seed corpus (order 2) terminates with the empty set for every target
count.  On the code this fails for any positive target: this theorem shows
the run is still unfinished after every number of loop iterations, i.e.
the while-loop of generate_words_from_markov never terminates, because
every pass synthesizes the empty word, which is never added to the result
set. -/
theorem c1_empty_model_nonterminating :
    ∀ (fuel : Nat) (g : Nat → Nat),
    generate_words_from_markov fuel (build_markov_chain [] 2) 1 2 g
      = none := by
  intro fuel g
  rw [generate_words_from_markov]
  apply genLoop_stuck2 fuel _ 1 g 0 _ (le_refl 1)
  left
  rfl

/-- Claim C3: the claim states that invalid parameter combinations such as
order below 1 are rejected with a configuration error before any model
building or generation.  On the code there is no validation at all: with
order 0 the model is built (nonempty), and generation then runs forever
without any error, since every synthesized word has length at most 1 and
is never added. -/
theorem c3_order_zero_no_error :
    build_markov_chain [bankW] 0 ≠ [] ∧
    ∀ (fuel : Nat) (g : Nat → Nat),
      generate_words_from_markov fuel (build_markov_chain [bankW] 0) 1 0 g
        = none := by
  constructor
  · decide
  · intro fuel g
    rw [generate_words_from_markov]
    apply genLoop_stuck0 fuel _ 1 g 0 _ (le_refl 1)
    intro q f hq hne
    rw [show build_markov_chain [bankW] 0
        = [([], [('b', 1), ('a', 1), ('n', 1), ('k', 1)])] by decide] at hq
    by_cases hq0 : ([] : List Char) = q
    · exact hq0.symm
    · simp [Model.find, hq0] at hq

/-- Claim C2 counterexample: generation is NOT read-only on the model and
the nonempty-table invariant does NOT survive generation.  A concrete
terminating run on the model built from the single word bank adds the key
nk with an empty frequency table (the defaultdict side effect of the read
model[prefix]), a key that was absent before the run. -/
theorem c2_counterexample :
    generate_words_from_markov 2 (build_markov_chain [bankW] 2) 1 2
        (fun _ => 0)
      = some ([bankW], build_markov_chain [bankW] 2 ++ [(['n', 'k'], [])]) ∧
    Model.find (build_markov_chain [bankW] 2 ++ [(['n', 'k'], [])])
        ['n', 'k'] = some [] ∧
    Model.find (build_markov_chain [bankW] 2) ['n', 'k'] = none := by
  decide

/-- Claim C2 (amended): right after build every stored prefix has a
nonempty frequency table whose counts are all at least 1; generation never
changes or removes any existing entry, but its defaultdict reads may
append fresh keys with empty tables, so the nonempty-table invariant does
not persist through generation. -/
theorem c2_amended_invariant :
    (∀ (seed : List (List Char)) (ord : Nat) (p : List Char) (f : Freq),
        Model.find (build_markov_chain seed ord) p = some f →
        f ≠ [] ∧ ∀ cn ∈ f, 1 ≤ cn.2) ∧
    (∀ (fuel count ord : Nat) (g : Nat → Nat) (m : Model)
        (res : List (List Char)) (m' : Model),
        generate_words_from_markov fuel m count ord g = some (res, m') →
        ∀ p, Model.find m' p = Model.find m p ∨
          (Model.find m p = none ∧ Model.find m' p = some [])) := by
  constructor
  · intro seed ord p f hf
    have h := good_build_true seed ord p f hf
    exact ⟨h.1, fun cn hcn => (h.2 cn hcn).1⟩
  · intro fuel count ord g m res m' hgen
    rw [generate_words_from_markov] at hgen
    exact genLoop_Rext fuel m m count ord g 0 [] res m' (Rext_refl m) hgen

/-- Witness for the amended claim C2, at the model built from bank and the
concrete generation run of the counterexample, at prefix nk. -/
theorem c2_amended_invariant_witness :
    (([(('b' : Char), (1 : Nat))] : Freq) ≠ []) ∧
    (Model.find (build_markov_chain [bankW] 2 ++ [(['n', 'k'], [])])
        ['n', 'k'] = Model.find (build_markov_chain [bankW] 2) ['n', 'k'] ∨
      (Model.find (build_markov_chain [bankW] 2) ['n', 'k'] = none ∧
        Model.find (build_markov_chain [bankW] 2 ++ [(['n', 'k'], [])])
          ['n', 'k'] = some [])) :=
  ⟨(c2_amended_invariant.1 [bankW] 2 ['~', '~'] [('b', 1)] (by decide)).1,
   c2_amended_invariant.2 2 1 2 (fun _ => 0) (build_markov_chain [bankW] 2)
     [bankW] (build_markov_chain [bankW] 2 ++ [(['n', 'k'], [])])
     (by decide) ['n', 'k']⟩

/-- Claim C4: count conservation.  For every seed list and every order at
least 1, the sum of all counts in the built model equals the sum of the
word lengths of the seed. -/
theorem c4_count_conservation (seed : List (List Char)) (ord : Nat)
    (h : 1 ≤ ord) :
    Model.totalCount (build_markov_chain seed ord)
      = (seed.map List.length).sum := by
  rw [build_markov_chain, totalCount_build_aux]
  simp [Model.totalCount]

/-- Witness for claim C4 at the three-word scenario seed with order 2. -/
theorem c4_count_conservation_witness :
    Model.totalCount (build_markov_chain [bankW, rankW, tankW] 2)
      = ([bankW, rankW, tankW].map List.length).sum :=
  c4_count_conservation [bankW, rankW, tankW] 2 (by decide)

/-- Claim C5: length bounds.  Every word in a set returned by a
terminating run of generate_words_from_markov has length at least
MIN_WORD_LEN and at most MAX_SYNTH_LEN, for every model, target count,
order and random oracle. -/
theorem c5_length_bounds (fuel : Nat) (m : Model) (count ord : Nat)
    (g : Nat → Nat) (res : List (List Char)) (m' : Model)
    (h : generate_words_from_markov fuel m count ord g = some (res, m')) :
    ∀ w ∈ res, MIN_WORD_LEN ≤ w.length ∧ w.length ≤ MAX_SYNTH_LEN := by
  rw [generate_words_from_markov] at h
  exact genLoop_len fuel m count ord g 0 [] res m'
    (by intro w hw; simp at hw) h

/-- Witness for claim C5 at a concrete terminating run that returns the
word bank. -/
theorem c5_length_bounds_witness :
    MIN_WORD_LEN ≤ bankW.length ∧ bankW.length ≤ MAX_SYNTH_LEN :=
  c5_length_bounds 2 (build_markov_chain [bankW] 2) 1 2 (fun _ => 0)
    [bankW] (build_markov_chain [bankW] 2 ++ [(['n', 'k'], [])])
    (by decide) bankW (by decide)

/-- Claim C6: scenario model.  For every enumeration order of the seed set
containing bank, rank and tank, with order 2, the built model maps prefix
two-sentinels exactly to counts 1 for b, r and t (0 for every other
character), and prefix an exactly to count 3 for k (0 for every other
character). -/
theorem c6_scenario_model (l : List (List Char))
    (hperm : l.Perm [bankW, rankW, tankW]) :
    (∀ c, Model.countOf (build_markov_chain l 2) ['~', '~'] c
        = if 'b' = c then 1 else if 'r' = c then 1 else if 't' = c then 1
          else 0) ∧
    (∀ c, Model.countOf (build_markov_chain l 2) ['a', 'n'] c
        = if 'k' = c then 3 else 0) := by
  constructor
  · intro c
    rw [countOf_build]
    have hsum :=
      (hperm.map (fun w => countPair (transitions 2 w) ['~', '~'] c)).sum_eq
    rw [hsum]
    simp only [List.map_cons, List.map_nil, List.sum_cons, List.sum_nil]
    rw [cpBankStart, cpRankStart, cpTankStart]
    by_cases hb : 'b' = c
    · rw [← hb]; decide
    · by_cases hr : 'r' = c
      · rw [← hr]; decide
      · by_cases ht2 : 't' = c
        · rw [← ht2]; decide
        · simp [hb, hr, ht2]
  · intro c
    rw [countOf_build]
    have hsum :=
      (hperm.map (fun w => countPair (transitions 2 w) ['a', 'n'] c)).sum_eq
    rw [hsum]
    simp only [List.map_cons, List.map_nil, List.sum_cons, List.sum_nil]
    rw [cpBankAn, cpRankAn, cpTankAn]
    by_cases hk : 'k' = c
    · rw [← hk]; decide
    · simp [hk]

/-- Witness for claim C6 at the canonical enumeration order. -/
theorem c6_scenario_model_witness :
    Model.countOf (build_markov_chain [bankW, rankW, tankW] 2) ['~', '~'] 'b'
        = 1 ∧
    Model.countOf (build_markov_chain [bankW, rankW, tankW] 2) ['a', 'n'] 'k'
        = 3 := by
  have h := c6_scenario_model [bankW, rankW, tankW] (List.Perm.refl _)
  constructor
  · have hb := h.1 'b'
    simpa using hb
  · have hk := h.2 'k'
    simpa using hk

/-- Claim C7: alphabet closure.  Every character of every word in a set
returned by a terminating generation run on a model built from a seed
occurs in some word of that seed, regardless of the random choices. -/
theorem c7_alphabet_closure (seed : List (List Char))
    (ord fuel count : Nat) (g : Nat → Nat) (res : List (List Char))
    (m' : Model)
    (h : generate_words_from_markov fuel (build_markov_chain seed ord)
        count ord g = some (res, m')) :
    ∀ w ∈ res, ∀ c ∈ w, ∃ v ∈ seed, c ∈ v := by
  rw [generate_words_from_markov] at h
  exact genLoop_chars (good_build seed ord) fuel
    (build_markov_chain seed ord) count ord g 0 [] res m' (Rext_refl _)
    (by intro w hw; simp at hw) h

/-- Witness for claim C7 at a concrete terminating run returning bank. -/
theorem c7_alphabet_closure_witness : ∃ v ∈ [bankW], 'b' ∈ v :=
  c7_alphabet_closure [bankW] 2 2 1 (fun _ => 0) [bankW]
    (build_markov_chain [bankW] 2 ++ [(['n', 'k'], [])]) (by decide)
    bankW (by decide) 'b' (by decide)

/-- Claim C8 counterexample: build_markov_chain does not skip words
shorter than MIN_WORD_LEN.  The model built from the two-letter word ab is
not the model built from the length-filtered (empty) seed: the first
stores count 1 for next character a under the start prefix, the second
stores nothing. -/
theorem c8_counterexample :
    Model.countOf (build_markov_chain [['a', 'b']] 2) ['~', '~'] 'a' = 1 ∧
    Model.countOf
        (build_markov_chain
          (List.filter (fun w => decide (MIN_WORD_LEN ≤ w.length))
            [['a', 'b']]) 2) ['~', '~'] 'a' = 0 := by
  decide

/-- Claim C8 (amended): build_markov_chain applies no minimum-length
filter.  Every word, of any length, contributes exactly its own
transition counts to the model: appending a word w to the seed adds
countPair (transitions ord w) to every (prefix, character) count,
with no condition on the length of w. -/
theorem c8_amended_no_filter (l : List (List Char)) (w : List Char)
    (ord : Nat) (p : List Char) (c : Char) :
    Model.countOf (build_markov_chain (l ++ [w]) ord) p c
      = Model.countOf (build_markov_chain l ord) p c
        + countPair (transitions ord w) p c := by
  rw [build_markov_chain, build_markov_chain, List.foldl_append]
  simp only [List.foldl_cons, List.foldl_nil]
  rw [countOf_addWord]

/-- Claim C9: a target count of 0 makes generate_words_from_markov return
the empty set at once, with the model untouched, for every model, order
and oracle. -/
theorem c9_zero_target (fuel : Nat) (m : Model) (ord : Nat)
    (g : Nat → Nat) :
    generate_words_from_markov (fuel + 1) m 0 ord g = some ([], m) := by
  rw [generate_words_from_markov]
  simp [genLoop]

/-- Claim C10: whenever generate_words_from_markov terminates, the result
set has exactly the target count of members, with no duplicates. -/
theorem c10_exact_count (fuel : Nat) (m : Model) (count ord : Nat)
    (g : Nat → Nat) (res : List (List Char)) (m' : Model)
    (h : generate_words_from_markov fuel m count ord g = some (res, m')) :
    res.length = count ∧ res.Nodup := by
  rw [generate_words_from_markov] at h
  exact genLoop_count fuel m count ord g 0 [] res m' (by simp) (by simp) h

/-- Witness for claim C10 at a concrete terminating run with target 1. -/
theorem c10_exact_count_witness :
    ([bankW] : List (List Char)).length = 1 ∧
    ([bankW] : List (List Char)).Nodup :=
  c10_exact_count 2 (build_markov_chain [bankW] 2) 1 2 (fun _ => 0) [bankW]
    (build_markov_chain [bankW] 2 ++ [(['n', 'k'], [])]) (by decide)
